import Mathlib

/-!
Verification development for the bf-jit repository.

The compiler (`Program::from_source`, `Program::optimize_loops`, `count_occ`
in `src/parser.rs`, duplicated verbatim in `src/main.rs`) and the two
interpreters (`interpret` in `src/interpreter.rs` and `Program::execute` in
`src/main.rs`) are embedded shallowly:

* `u8` values are `Nat` with explicit `% 256` where the Rust code wraps
  (`wrapping_add`, `wrapping_sub`, and release-mode `+` / `+=` overflow);
* `usize` values are `Nat` with explicit `% 2 ^ 64` (release-mode wrapping
  of `+=` / `-=` on the data pointer);
* slice indexing `memory[i]` is always bounds-checked by Rust and panics on
  an out-of-range index; a panic is modeled as an `Except.error`;
* the possibly non-terminating interpreter loops take an explicit fuel
  parameter; running out of fuel yields `none` (divergence marker);
* `stdin` is a list of byte values, `stdout` is the list of bytes actually
  written (Rust's `print!("{}", b as char)` writes the UTF-8 encoding of
  the code point `b`, which is two bytes for `b ≥ 128`).
-/

namespace BfJit

/-- The opcode set, `enum Opcode` in parser.rs lines 5-18 (identical in
main.rs lines 11-24).  `u8` payloads become `Nat` (the parser only ever
produces values `< 256`), `usize` jump targets become `Nat`. -/
inductive Opcode where
  | IncPtr (count : Nat)
  | DecPtr (count : Nat)
  | IncData (count : Nat)
  | DecData (count : Nat)
  | ReadStdin
  | WriteStdout
  | LoopSetToZero
  | LoopMovePtr (stride : Nat) (positive : Bool)
  | LoopMoveData (stride : Nat) (positive : Bool)
  | JumpIfDataZero (target : Nat)
  | JumpIfDataNotZero (target : Nat)
deriving DecidableEq, Repr

/-- Compile-time failure.  `from_source` panics with
`unmatched ']' at pc={closing_pc}` (parser.rs line 69) or
`unmatched '[' at pc={bracket_stack[0]}` (parser.rs line 93); a panic is
modeled as an error value carrying the reported pc. -/
inductive CompileError where
  | unmatchedClose (pc : Nat)
  | unmatchedOpen (pc : Nat)
deriving DecidableEq, Repr

/-- `count_occ` (parser.rs lines 141-153): greedily consumes the leading
occurrences of `val`, incrementing a `u8` counter.  The Rust iterator is
modeled by returning the remaining character list together with the final
counter; the `u8` increment `count += 1` wraps modulo 256 (release build).
The Rust caller always starts the counter at 1. -/
def count_occ (val : Char) (l : List Char) (count : Nat) : Nat × List Char :=
  match l with
  | [] => (count, [])
  | c :: rest =>
    if c = val then count_occ val rest ((count + 1) % 256)
    else (count, c :: rest)

/-- `Program::optimize_loops` (parser.rs lines 99-138, identical in main.rs):
structural pattern match on the opcode slice strictly between a bracket
pair.  Rust match-arm order is preserved; a failed `n == m` guard falls
through, and no later arm can match a four-element slice, so the guarded
arms return `none` directly on guard failure. -/
def optimize_loops (insn : List Opcode) : Option Opcode :=
  match insn with
  | [.DecData 1] => some .LoopSetToZero
  | [.DecData 1, .IncPtr n, .IncData 1, .DecPtr m] =>
    if n = m then some (.LoopMoveData n true) else none
  | [.DecData 1, .DecPtr n, .IncData 1, .IncPtr m] =>
    if n = m then some (.LoopMoveData n false) else none
  | [.IncPtr n] => some (.LoopMovePtr n true)
  | [.DecPtr n] => some (.LoopMovePtr n false)
  | _ => none

/-- `count_occ` never lengthens the remaining character list (it only
consumes); used to justify termination of the parse loop below. -/
def count_occ_length_le (v : Char) :
    ∀ (l : List Char) (n : Nat), ((count_occ v l n).2).length ≤ l.length
  | [], _ => by simp [count_occ]
  | c :: rest, n => by
    by_cases hx : c = v
    · simpa [count_occ, hx] using
        Nat.le_succ_of_le (count_occ_length_le v rest ((n + 1) % 256))
    · simp [count_occ, hx]

/-- The body of `Program::from_source` (parser.rs lines 43-97, identical in
main.rs lines 49-109): one iteration of the `while source_iter.peek()`
loop per recursive call.  `instructions` and `bracket_stack` are the two
mutable vectors; the stack is kept head-first (`push` = cons, `pop` =
head, so Rust's `bracket_stack[0]` is the *last* element of the list).
The Rust `match` on the character is an if-chain here; `_ => continue`
skips any other character. -/
def parseLoop (src : List Char) (instructions : List Opcode)
    (bracketStack : List Nat) : Except CompileError (List Opcode) :=
  match src with
  | [] =>
    -- loop exits; `if !bracket_stack.is_empty() { panic!("unmatched '['…") }`
    match bracketStack with
    | [] => .ok instructions
    | s :: stackRest => .error (.unmatchedOpen ((s :: stackRest).getLast (by simp)))
  | c :: rest =>
    if c = '>' then
      parseLoop (count_occ '>' rest 1).2
        (instructions ++ [.IncPtr (count_occ '>' rest 1).1]) bracketStack
    else if c = '<' then
      parseLoop (count_occ '<' rest 1).2
        (instructions ++ [.DecPtr (count_occ '<' rest 1).1]) bracketStack
    else if c = '+' then
      parseLoop (count_occ '+' rest 1).2
        (instructions ++ [.IncData (count_occ '+' rest 1).1]) bracketStack
    else if c = '-' then
      parseLoop (count_occ '-' rest 1).2
        (instructions ++ [.DecData (count_occ '-' rest 1).1]) bracketStack
    else if c = ',' then
      parseLoop rest (instructions ++ [.ReadStdin]) bracketStack
    else if c = '.' then
      parseLoop rest (instructions ++ [.WriteStdout]) bracketStack
    else if c = '[' then
      -- emit the placeholder `JumpIfDataZero(instructions.len())` and push
      parseLoop rest (instructions ++ [.JumpIfDataZero instructions.length])
        (instructions.length :: bracketStack)
    else if c = ']' then
      match bracketStack with
      | [] => .error (.unmatchedClose instructions.length)
      | openingPc :: stackRest =>
        match optimize_loops (instructions.drop (openingPc + 1)) with
        | some loopInsn =>
          parseLoop rest (instructions.take openingPc ++ [loopInsn]) stackRest
        | none =>
          parseLoop rest
            ((instructions.set openingPc (.JumpIfDataZero instructions.length)) ++
              [.JumpIfDataNotZero openingPc]) stackRest
    else
      parseLoop rest instructions bracketStack
termination_by src.length
decreasing_by
  all_goals simp_wf
  all_goals
    first
    | omega
    | exact Nat.lt_succ_of_le (count_occ_length_le _ _ _)

/-- `Program::from_source` (parser.rs lines 43-97): run the parse loop on
the source characters with empty instruction vector and bracket stack. -/
def from_source (source : String) : Except CompileError (List Opcode) :=
  parseLoop source.toList [] []

/-! ## Interpreter embedding -/

/-- `const MEMORY_SIZE: usize = 30_000` (main.rs line 9); interpreter.rs
line 6 hard-codes the same `[0_u8; 30_000]`. -/
def MEMORY_SIZE : Nat := 30000

/-- Modulus of `usize` arithmetic on the 64-bit target. -/
def USIZE_MOD : Nat := 2 ^ 64

/-- `u8::wrapping_add` and release-mode `u8` `+`: add modulo 256. -/
def wrapAdd (a b : Nat) : Nat := (a + b) % 256

/-- `u8::wrapping_sub` and release-mode `u8` `-`: subtract modulo 256. -/
def wrapSub (a b : Nat) : Nat := (a + (256 - b % 256)) % 256

/-- Release-mode `usize` addition `data_ptr += stride`. -/
def usizeAdd (a b : Nat) : Nat := (a + b) % USIZE_MOD

/-- Release-mode `usize` subtraction `data_ptr -= stride` (wraps on
underflow). -/
def usizeSub (a b : Nat) : Nat := (a + (USIZE_MOD - b % USIZE_MOD)) % USIZE_MOD

/-- The address `data_ptr ± stride` computed by `LoopMovePtr` and
`LoopMoveData` (interpreter.rs lines 38-54, main.rs lines 185-200). -/
def strideAddr (ptr stride : Nat) (positive : Bool) : Nat :=
  if positive then usizeAdd ptr stride else usizeSub ptr stride

/-- A runtime panic.  The only runtime panic reachable in release mode is
the bounds check of `memory[i]` with `i ≥ 30_000`. -/
inductive RuntimeError where
  | indexOutOfBounds (idx : Nat)
deriving DecidableEq, Repr

/-- Interpreter state: the 30_000-byte tape is a total function (cells
outside `[0, 30000)` are never read or written — every access is
bounds-checked), plus `data_ptr`, the remaining stdin bytes and the bytes
written to stdout so far. -/
structure MachineState where
  mem : Nat → Nat
  dataPtr : Nat
  input : List Nat
  output : List Nat

/-- The checked read `memory[i]`: Rust panics when `i ≥ 30_000`. -/
def memRead (mem : Nat → Nat) (i : Nat) : Except RuntimeError Nat :=
  if i < MEMORY_SIZE then .ok (mem i) else .error (.indexOutOfBounds i)

/-- Pointwise update of the tape function. -/
def memUpd (mem : Nat → Nat) (i v : Nat) : Nat → Nat :=
  fun j => if j = i then v else mem j

/-- The checked write `memory[i] = v`: Rust panics when `i ≥ 30_000`. -/
def memWrite (mem : Nat → Nat) (i v : Nat) : Except RuntimeError (Nat → Nat) :=
  if i < MEMORY_SIZE then .ok (memUpd mem i v) else .error (.indexOutOfBounds i)

/-- `read_byte()` (interpreter.rs lines 89-95, main.rs lines 243-249):
one byte from stdin, `0` on EOF or error.  A stdin byte is a `u8`, hence
the `% 256`. -/
def readByte (input : List Nat) : Nat × List Nat :=
  match input with
  | [] => (0, [])
  | b :: rest => (b % 256, rest)

/-- UTF-8 encoding of the code point `b < 256`, as written to stdout by
`print!("{}", memory[data_ptr] as char)`: one byte below 128, two bytes
(`0xC0 + b / 64`, `0x80 + b % 64`) for 128..255. -/
def utf8BytesOfByte (b : Nat) : List Nat :=
  if b < 128 then [b] else [192 + b / 64, 128 + b % 64]

/-- The `while memory[data_ptr] != 0` loop of `LoopMovePtr`
(interpreter.rs lines 38-46, main.rs lines 185-193): stride the pointer
until it lands on a zero cell.  Each iteration re-reads the (checked)
current cell; the loop can run forever, so it consumes fuel, `none`
marking divergence within the allotted fuel. -/
def movePtrLoop (mem : Nat → Nat) (stride : Nat) (positive : Bool) :
    Nat → Nat → Option (Except RuntimeError Nat)
  | 0, _ => none
  | fuel + 1, ptr =>
    match memRead mem ptr with
    | .error e => some (.error e)
    | .ok v =>
      if v ≠ 0 then movePtrLoop mem stride positive fuel (strideAddr ptr stride positive)
      else some (.ok ptr)

/-- One iteration of the fetch-decode-execute loop of `interpret`
(interpreter.rs lines 22-76): the effect of one opcode on `(pc, state)`.
Jump opcodes set `pc` to their target and the terminating `pc += 1`
(line 76) is applied here, so the returned pc is the next instruction to
run.  `fuel` bounds the inner `LoopMovePtr` loop only. -/
def interpOp (op : Opcode) (pc : Nat) (s : MachineState) (fuel : Nat) :
    Option (Except RuntimeError (Nat × MachineState)) :=
  match op with
  | .IncPtr count => some (.ok (pc + 1, { s with dataPtr := usizeAdd s.dataPtr count }))
  | .DecPtr count => some (.ok (pc + 1, { s with dataPtr := usizeSub s.dataPtr count }))
  | .IncData count =>
    match memRead s.mem s.dataPtr with
    | .error e => some (.error e)
    | .ok v =>
      match memWrite s.mem s.dataPtr (wrapAdd v count) with
      | .error e => some (.error e)
      | .ok m => some (.ok (pc + 1, { s with mem := m }))
  | .DecData count =>
    match memRead s.mem s.dataPtr with
    | .error e => some (.error e)
    | .ok v =>
      match memWrite s.mem s.dataPtr (wrapSub v count) with
      | .error e => some (.error e)
      | .ok m => some (.ok (pc + 1, { s with mem := m }))
  | .WriteStdout =>
    match memRead s.mem s.dataPtr with
    | .error e => some (.error e)
    | .ok v => some (.ok (pc + 1, { s with output := s.output ++ utf8BytesOfByte v }))
  | .ReadStdin =>
    match memWrite s.mem s.dataPtr (readByte s.input).1 with
    | .error e => some (.error e)
    | .ok m => some (.ok (pc + 1, { s with mem := m, input := (readByte s.input).2 }))
  | .LoopSetToZero =>
    match memWrite s.mem s.dataPtr 0 with
    | .error e => some (.error e)
    | .ok m => some (.ok (pc + 1, { s with mem := m }))
  | .LoopMovePtr stride positive =>
    match movePtrLoop s.mem stride positive fuel s.dataPtr with
    | none => none
    | some (.error e) => some (.error e)
    | some (.ok ptr) => some (.ok (pc + 1, { s with dataPtr := ptr }))
  | .LoopMoveData stride positive =>
    -- interpreter.rs lines 48-59: guarded by `if memory[data_ptr] != 0`
    match memRead s.mem s.dataPtr with
    | .error e => some (.error e)
    | .ok v =>
      if v ≠ 0 then
        match memRead s.mem (strideAddr s.dataPtr stride positive) with
        | .error e => some (.error e)
        | .ok w =>
          match memWrite s.mem (strideAddr s.dataPtr stride positive) (wrapAdd w v) with
          | .error e => some (.error e)
          | .ok m1 =>
            match memWrite m1 s.dataPtr 0 with
            | .error e => some (.error e)
            | .ok m2 => some (.ok (pc + 1, { s with mem := m2 }))
      else some (.ok (pc + 1, s))
  | .JumpIfDataZero target =>
    match memRead s.mem s.dataPtr with
    | .error e => some (.error e)
    | .ok v => some (.ok ((if v = 0 then target else pc) + 1, s))
  | .JumpIfDataNotZero target =>
    match memRead s.mem s.dataPtr with
    | .error e => some (.error e)
    | .ok v => some (.ok ((if v ≠ 0 then target else pc) + 1, s))

/-- One iteration of the fetch-decode-execute loop of `Program::execute`
(main.rs lines 160-222).  Identical to `interpOp` except `LoopMoveData`
(main.rs lines 195-204), which has *no* zero test: it always computes
`new_addr`, performs the (release-mode wrapping) `+=`, and zeroes the
current cell. -/
def execOp (op : Opcode) (pc : Nat) (s : MachineState) (fuel : Nat) :
    Option (Except RuntimeError (Nat × MachineState)) :=
  match op with
  | .IncPtr count => some (.ok (pc + 1, { s with dataPtr := usizeAdd s.dataPtr count }))
  | .DecPtr count => some (.ok (pc + 1, { s with dataPtr := usizeSub s.dataPtr count }))
  | .IncData count =>
    match memRead s.mem s.dataPtr with
    | .error e => some (.error e)
    | .ok v =>
      match memWrite s.mem s.dataPtr (wrapAdd v count) with
      | .error e => some (.error e)
      | .ok m => some (.ok (pc + 1, { s with mem := m }))
  | .DecData count =>
    match memRead s.mem s.dataPtr with
    | .error e => some (.error e)
    | .ok v =>
      match memWrite s.mem s.dataPtr (wrapSub v count) with
      | .error e => some (.error e)
      | .ok m => some (.ok (pc + 1, { s with mem := m }))
  | .WriteStdout =>
    match memRead s.mem s.dataPtr with
    | .error e => some (.error e)
    | .ok v => some (.ok (pc + 1, { s with output := s.output ++ utf8BytesOfByte v }))
  | .ReadStdin =>
    match memWrite s.mem s.dataPtr (readByte s.input).1 with
    | .error e => some (.error e)
    | .ok m => some (.ok (pc + 1, { s with mem := m, input := (readByte s.input).2 }))
  | .LoopSetToZero =>
    match memWrite s.mem s.dataPtr 0 with
    | .error e => some (.error e)
    | .ok m => some (.ok (pc + 1, { s with mem := m }))
  | .LoopMovePtr stride positive =>
    match movePtrLoop s.mem stride positive fuel s.dataPtr with
    | none => none
    | some (.error e) => some (.error e)
    | some (.ok ptr) => some (.ok (pc + 1, { s with dataPtr := ptr }))
  | .LoopMoveData stride positive =>
    -- main.rs lines 195-204: unguarded `memory[new_addr] += memory[data_ptr]`
    match memRead s.mem s.dataPtr with
    | .error e => some (.error e)
    | .ok v =>
      match memRead s.mem (strideAddr s.dataPtr stride positive) with
      | .error e => some (.error e)
      | .ok w =>
        match memWrite s.mem (strideAddr s.dataPtr stride positive) (wrapAdd w v) with
        | .error e => some (.error e)
        | .ok m1 =>
          match memWrite m1 s.dataPtr 0 with
          | .error e => some (.error e)
          | .ok m2 => some (.ok (pc + 1, { s with mem := m2 }))
  | .JumpIfDataZero target =>
    match memRead s.mem s.dataPtr with
    | .error e => some (.error e)
    | .ok v => some (.ok ((if v = 0 then target else pc) + 1, s))
  | .JumpIfDataNotZero target =>
    match memRead s.mem s.dataPtr with
    | .error e => some (.error e)
    | .ok v => some (.ok ((if v ≠ 0 then target else pc) + 1, s))

/-- The `while pc < program.instructions.len()` driver loop of `interpret`
(interpreter.rs lines 13-77), with fuel (one unit per fetched opcode;
the remaining fuel also bounds each inner `LoopMovePtr` loop). -/
def interpRun (prog : List Opcode) : Nat → Nat → MachineState →
    Option (Except RuntimeError MachineState)
  | 0, _, _ => none
  | fuel + 1, pc, s =>
    if h : pc < prog.length then
      match interpOp (prog.get ⟨pc, h⟩) pc s fuel with
      | none => none
      | some (.error e) => some (.error e)
      | some (.ok (pc', s')) => interpRun prog fuel pc' s'
    else some (.ok s)

/-- The `while pc < self.instructions.len()` driver loop of
`Program::execute` (main.rs lines 160-222), with fuel. -/
def execRun (prog : List Opcode) : Nat → Nat → MachineState →
    Option (Except RuntimeError MachineState)
  | 0, _, _ => none
  | fuel + 1, pc, s =>
    if h : pc < prog.length then
      match execOp (prog.get ⟨pc, h⟩) pc s fuel with
      | none => none
      | some (.error e) => some (.error e)
      | some (.ok (pc', s')) => execRun prog fuel pc' s'
    else some (.ok s)

/-- The state at the start of execution: zeroed tape, `pc = 0`,
`data_ptr = 0`, given stdin contents, nothing written yet. -/
def initState (input : List Nat) : MachineState :=
  { mem := fun _ => 0, dataPtr := 0, input := input, output := [] }

/-- A zeroed machine state whose cell 0 holds `v` (used to state the
single-opcode execution claims). -/
def stateWithCell (v : Nat) : MachineState :=
  { mem := fun i => if i = 0 then v else 0, dataPtr := 0, input := [], output := [] }

/-! ## Claim-side predicates and helpers -/

/-- All tape cells hold `u8` values.  Holds in every reachable state
(cells start at 0 and every write is reduced mod 256). -/
def memInv (s : MachineState) : Prop := ∀ i, s.mem i < 256

/-- Bracket balance of a source text, the spec's "brackets are unbalanced
in either direction": scanning left to right with `k` currently open
brackets, a `]` with `k = 0` or a leftover open bracket at the end is
unbalanced.  Characters other than `[` and `]` are irrelevant. -/
def balancedFrom (k : Nat) : List Char → Bool
  | [] => k = 0
  | c :: rest =>
    if c = '[' then balancedFrom (k + 1) rest
    else if c = ']' then
      match k with
      | 0 => false
      | k' + 1 => balancedFrom k' rest
    else balancedFrom k rest

/-- A source text has balanced brackets. -/
def bracketsBalanced (src : List Char) : Bool := balancedFrom 0 src

/-- The opcode emitted for a run of one of the four run-length symbols. -/
def runOp (sym : Char) (count : Nat) : Opcode :=
  if sym = '>' then .IncPtr count
  else if sym = '<' then .DecPtr count
  else if sym = '+' then .IncData count
  else .DecData count

/-- The jump opcodes of a program are exactly matched: every
`JumpIfDataZero` points at a `JumpIfDataNotZero` further right that
points back at it, and vice versa.  (Mutual pointing makes the matching
unique, and rules out unresolved placeholders, which point at their own
index.) -/
def jumpsResolved (p : List Opcode) : Prop :=
  (∀ i (h : i < p.length) t, p.get ⟨i, h⟩ = .JumpIfDataZero t →
    i < t ∧ ∃ h' : t < p.length, p.get ⟨t, h'⟩ = .JumpIfDataNotZero i) ∧
  (∀ j (h : j < p.length) o, p.get ⟨j, h⟩ = .JumpIfDataNotZero o →
    o < j ∧ ∃ h' : o < p.length, p.get ⟨o, h'⟩ = .JumpIfDataZero j)

/-- An opcode that is not a jump. -/
def nonJump : Opcode → Prop
  | .JumpIfDataZero _ => False
  | .JumpIfDataNotZero _ => False
  | _ => True

/-- The parse-loop invariant relating the instruction vector and the
bracket stack at the top of each `while` iteration of `from_source`:
the stack (head = most recently pushed) holds strictly decreasing
placeholder positions, every off-stack `JumpIfDataZero` is resolved
against a matching `JumpIfDataNotZero` and vice versa, and no resolved
pair straddles a stack entry. -/
structure ParseInv (instrs : List Opcode) (stack : List Nat) : Prop where
  stackSorted : stack.Pairwise (fun a b => b < a)
  stackBounded : ∀ q ∈ stack, q < instrs.length
  stackPlaceholder : ∀ q ∈ stack, ∀ h : q < instrs.length,
    instrs.get ⟨q, h⟩ = .JumpIfDataZero q
  resolvedOpen : ∀ i t (h : i < instrs.length),
    instrs.get ⟨i, h⟩ = .JumpIfDataZero t → i ∉ stack →
    i < t ∧ ∃ h' : t < instrs.length, instrs.get ⟨t, h'⟩ = .JumpIfDataNotZero i
  resolvedClose : ∀ j o (h : j < instrs.length),
    instrs.get ⟨j, h⟩ = .JumpIfDataNotZero o →
    o < j ∧ o ∉ stack ∧ ∃ h' : o < instrs.length, instrs.get ⟨o, h'⟩ = .JumpIfDataZero j
  separated : ∀ q ∈ stack, ∀ i t (h : i < instrs.length),
    instrs.get ⟨i, h⟩ = .JumpIfDataZero t → i ∉ stack → t < q ∨ q < i

/-! ## Theorems -/

/-- **C1.**  The literal round-trip sources of the spec compile to exactly
the stated opcode sequences (`LoopZeroCell` = `LoopSetToZero`,
`LoopShiftCursor(n, right)` = `LoopMovePtr n true`,
`LoopTransferCell(n, right/left)` = `LoopMoveData n true/false`,
`MovePtrRight(n)` = `IncPtr n`), and executing the compiled `[-]` on a
cell initialized to 200 leaves that cell at 0. -/
theorem c1_literal_round_trips :
    from_source "[-]" = .ok [.LoopSetToZero] ∧
    (interpRun [.LoopSetToZero] 2 0 (stateWithCell 200)).map
      (Except.map fun s => s.mem 0) = some (.ok 0) ∧
    from_source "[>>]" = .ok [.LoopMovePtr 2 true] ∧
    from_source "[->>>+<<<]" = .ok [.LoopMoveData 3 true] ∧
    from_source ">>>[-<<<<<<+>>>>>>]" = .ok [.IncPtr 3, .LoopMoveData 6 false] :=
  ⟨by simp [from_source, parseLoop, count_occ, optimize_loops], rfl,
   by simp [from_source, parseLoop, count_occ, optimize_loops],
   by simp [from_source, parseLoop, count_occ, optimize_loops],
   by simp [from_source, parseLoop, count_occ, optimize_loops]⟩

/-- **C10.**  The peephole optimizer never matches an already-optimized
opcode: each of the three replacement opcodes, as a singleton slice,
yields no match, and more generally any slice the optimizer returns
yields no match when re-offered to it, so re-optimizing a compiled
program changes nothing. -/
theorem c10_optimizer_idempotent :
    optimize_loops [.LoopSetToZero] = none ∧
    (∀ n b, optimize_loops [.LoopMovePtr n b] = none) ∧
    (∀ n b, optimize_loops [.LoopMoveData n b] = none) ∧
    (∀ slice op, optimize_loops slice = some op → optimize_loops [op] = none) := by
  refine ⟨rfl, fun n b => rfl, fun n b => rfl, fun slice op h => ?_⟩
  unfold optimize_loops at h
  split at h
  · cases h; rfl
  · split at h
    · cases h; rfl
    · exact absurd h (by simp)
  · split at h
    · cases h; rfl
    · exact absurd h (by simp)
  · cases h; rfl
  · cases h; rfl
  · exact absurd h (by simp)

/-- Witness for C10: `[-]`'s slice optimizes to `LoopSetToZero`, and the
optimizer does not match the result again. -/
theorem c10_witness :
    optimize_loops [Opcode.DecData 1] = some .LoopSetToZero ∧
    optimize_loops [Opcode.LoopSetToZero] = none :=
  ⟨rfl, c10_optimizer_idempotent.2.2.2 [Opcode.DecData 1] .LoopSetToZero rfl⟩

/-- **C8.**  `IncData` / `DecData` wrap modulo 256: the new cell value is
the old one plus (resp. minus) the count, reduced mod 256 (stated both
with the Rust `wrapping_add`/`wrapping_sub` embedding and as integer
arithmetic mod 256), and in particular 255 + 1 = 0 and 0 - 1 = 255. -/
theorem c8_cell_wraparound (s : MachineState) (n pc fuel : Nat)
    (hp : s.dataPtr < MEMORY_SIZE) :
    interpOp (.IncData n) pc s fuel =
      some (.ok (pc + 1,
        { s with mem := memUpd s.mem s.dataPtr (wrapAdd (s.mem s.dataPtr) n) })) ∧
    interpOp (.DecData n) pc s fuel =
      some (.ok (pc + 1,
        { s with mem := memUpd s.mem s.dataPtr (wrapSub (s.mem s.dataPtr) n) })) ∧
    ((wrapAdd (s.mem s.dataPtr) n : Int) = ((s.mem s.dataPtr : Int) + n) % 256) ∧
    ((wrapSub (s.mem s.dataPtr) n : Int) = ((s.mem s.dataPtr : Int) - n) % 256) ∧
    wrapAdd 255 1 = 0 ∧ wrapSub 0 1 = 255 := by
  refine ⟨?_, ?_, ?_, ?_, by decide, by decide⟩
  · simp [interpOp, memRead, memWrite, hp]
  · simp [interpOp, memRead, memWrite, hp]
  · unfold wrapAdd; omega
  · unfold wrapSub; omega

/-- Witness for C8 at a concrete state: incrementing a cell holding 255
by 1 wraps to 0. -/
theorem c8_witness :
    interpOp (.IncData 1) 0 (stateWithCell 255) 5 =
      some (.ok (1, { stateWithCell 255 with
        mem := memUpd (stateWithCell 255).mem 0 (wrapAdd 255 1) })) ∧
    wrapAdd 255 1 = 0 :=
  ⟨(c8_cell_wraparound (stateWithCell 255) 1 0 5 (by decide)).1,
   (c8_cell_wraparound (stateWithCell 255) 1 0 5 (by decide)).2.2.2.2.1⟩

/-- **C9, counterexample.**  `WriteStdout` does
`print!("{}", memory[data_ptr] as char)`, which writes the UTF-8 encoding
of the code point: running the program compiled from 200 `+`s and a `.`
emits the two bytes 195, 136 — not the single byte 200 the claim
requires for every cell value in 0..255. -/
theorem c9_counterexample :
    (interpRun [.IncData 200, .WriteStdout] 3 0 (initState [])).map
      (Except.map fun s => s.output) = some (.ok [195, 136]) ∧
    ([195, 136] : List Nat) ≠ [200] :=
  ⟨rfl, by decide⟩

/-- **C9, amended.**  Executing `WriteStdout` appends the UTF-8 encoding
of the character whose code point is the current cell value: exactly one
byte, equal to the cell value, when the cell is below 128, and exactly
the two bytes `192 + v / 64`, `128 + v % 64` when `128 ≤ v < 256`. -/
theorem c9_amended (s : MachineState) (pc fuel : Nat)
    (hp : s.dataPtr < MEMORY_SIZE) :
    interpOp .WriteStdout pc s fuel =
      some (.ok (pc + 1,
        { s with output := s.output ++ utf8BytesOfByte (s.mem s.dataPtr) })) ∧
    execOp .WriteStdout pc s fuel = interpOp .WriteStdout pc s fuel ∧
    (s.mem s.dataPtr < 128 →
      utf8BytesOfByte (s.mem s.dataPtr) = [s.mem s.dataPtr]) ∧
    (128 ≤ s.mem s.dataPtr →
      utf8BytesOfByte (s.mem s.dataPtr) =
        [192 + s.mem s.dataPtr / 64, 128 + s.mem s.dataPtr % 64]) := by
  refine ⟨?_, ?_, fun h => ?_, fun h => ?_⟩
  · simp [interpOp, memRead, hp]
  · simp [interpOp, execOp]
  · simp [utf8BytesOfByte, h]
  · simp [utf8BytesOfByte, Nat.not_lt.mpr h]

/-- Witness for C9 (amended) at a concrete state: cell 200 produces the
two bytes 195 and 136. -/
theorem c9_witness :
    interpOp .WriteStdout 0 (stateWithCell 200) 5 =
      some (.ok (1, { stateWithCell 200 with
        output := (stateWithCell 200).output ++ utf8BytesOfByte 200 })) ∧
    utf8BytesOfByte 200 = [195, 136] := by
  have h := c9_amended (stateWithCell 200) 0 5 (by decide)
  exact ⟨h.1, by simpa using h.2.2.2 (by decide)⟩

/-- **C2.**  `LoopMoveData` (the compiled form of `LoopTransferCell`):
when the current cell is non-zero, both interpreters add the current
cell's value into the cell `stride` away in direction `positive` with a
wrapping (mod 256) add and zero the current cell, leaving the cursor in
place; when the current cell is already zero, both interpreters leave
the state exactly unchanged (a pure no-op) and only advance the pc.
Hypotheses: the cursor and the target address are in tape bounds (out of
bounds they panic instead, see C4), and cells hold bytes. -/
theorem c2_loop_transfer (s : MachineState) (stride pc fuel : Nat)
    (positive : Bool) (hinv : memInv s) (hp : s.dataPtr < MEMORY_SIZE)
    (ht : strideAddr s.dataPtr stride positive < MEMORY_SIZE) :
    (s.mem s.dataPtr ≠ 0 →
      interpOp (.LoopMoveData stride positive) pc s fuel =
        some (.ok (pc + 1, { s with mem := memUpd (memUpd s.mem (strideAddr s.dataPtr stride positive) (wrapAdd (s.mem (strideAddr s.dataPtr stride positive)) (s.mem s.dataPtr))) s.dataPtr 0 })) ∧
      execOp (.LoopMoveData stride positive) pc s fuel =
        interpOp (.LoopMoveData stride positive) pc s fuel) ∧
    (s.mem s.dataPtr = 0 →
      interpOp (.LoopMoveData stride positive) pc s fuel = some (.ok (pc + 1, s)) ∧
      execOp (.LoopMoveData stride positive) pc s fuel = some (.ok (pc + 1, s))) := by
  constructor
  · intro hnz
    constructor
    · simp [interpOp, memRead, memWrite, hp, ht, hnz]
    · simp [interpOp, execOp, memRead, memWrite, hp, ht, hnz]
  · intro hz
    have hmem1 : memUpd s.mem (strideAddr s.dataPtr stride positive)
        (wrapAdd (s.mem (strideAddr s.dataPtr stride positive)) 0) = s.mem := by
      funext j
      unfold memUpd
      split
      · next hj =>
        subst hj
        simp [wrapAdd, Nat.mod_eq_of_lt (hinv _)]
      · rfl
    have hmem2 : memUpd s.mem s.dataPtr 0 = s.mem := by
      funext j
      unfold memUpd
      split
      · next hj => subst hj; exact hz.symm
      · rfl
    constructor
    · simp [interpOp, memRead, hp, hz]
    · simp only [execOp, memRead, memWrite, hp, ht, if_pos]
      simp [hz, hmem1, hmem2]


/-- Witness for C2 at a concrete state: transferring a cell holding 5
three cells to the right; both interpreters agree. -/
theorem c2_witness :
    interpOp (.LoopMoveData 3 true) 0 (stateWithCell 5) 7 =
      some (.ok (1, { stateWithCell 5 with mem := memUpd (memUpd (stateWithCell 5).mem (strideAddr (stateWithCell 5).dataPtr 3 true) (wrapAdd ((stateWithCell 5).mem (strideAddr (stateWithCell 5).dataPtr 3 true)) ((stateWithCell 5).mem (stateWithCell 5).dataPtr))) (stateWithCell 5).dataPtr 0 })) ∧
    execOp (.LoopMoveData 3 true) 0 (stateWithCell 5) 7 =
      interpOp (.LoopMoveData 3 true) 0 (stateWithCell 5) 7 :=
  (c2_loop_transfer (stateWithCell 5) 3 0 7 true
    (fun i => by dsimp [stateWithCell]; split <;> omega)
    (by decide) (by decide)).1 (by decide)

/-- **C4, counterexample.**  Cursor movement is not checked: the program
compiled from `<` moves the cursor below 0 (wrapping to `2 ^ 64 - 1`,
far outside `[0, 30000)`) and then completes cleanly, with no
`OutOfBounds` failure, under both interpreters. -/
theorem c4_counterexample :
    from_source "<" = .ok [.DecPtr 1] ∧
    (interpRun [.DecPtr 1] 2 0 (initState [])).map (Except.map fun s => s.dataPtr) =
      some (.ok (2 ^ 64 - 1)) ∧
    (execRun [.DecPtr 1] 2 0 (initState [])).map (Except.map fun s => s.dataPtr) =
      some (.ok (2 ^ 64 - 1)) ∧
    ¬ (2 ^ 64 - 1 < MEMORY_SIZE) :=
  ⟨by simp [from_source, parseLoop, count_occ], rfl, rfl, by decide⟩

/-- **C4, amended.**  Bounds are enforced only at tape accesses, not at
cursor movement: `IncPtr` / `DecPtr` always succeed (the cursor wraps
modulo `2 ^ 64`); an opcode that touches a cell while the cursor is out
of `[0, 30000)` fails with the index-out-of-bounds panic, `LoopMovePtr`
detecting it when it re-reads the current cell and `LoopMoveData` also
failing when its computed target address is out of range; and a tape
access with the cursor in bounds does not raise the failure. -/
theorem c4_amended (s : MachineState) (n pc fuel : Nat) (b : Bool) :
    interpOp (.IncPtr n) pc s fuel =
      some (.ok (pc + 1, { s with dataPtr := usizeAdd s.dataPtr n })) ∧
    interpOp (.DecPtr n) pc s fuel =
      some (.ok (pc + 1, { s with dataPtr := usizeSub s.dataPtr n })) ∧
    (MEMORY_SIZE ≤ s.dataPtr →
      interpOp (.IncData n) pc s fuel = some (.error (.indexOutOfBounds s.dataPtr)) ∧
      interpOp (.LoopMovePtr n b) pc s (fuel + 1) =
        some (.error (.indexOutOfBounds s.dataPtr)) ∧
      interpOp (.LoopMoveData n b) pc s fuel =
        some (.error (.indexOutOfBounds s.dataPtr))) ∧
    (s.dataPtr < MEMORY_SIZE → s.mem s.dataPtr ≠ 0 →
      MEMORY_SIZE ≤ strideAddr s.dataPtr n b →
      interpOp (.LoopMoveData n b) pc s fuel =
        some (.error (.indexOutOfBounds (strideAddr s.dataPtr n b)))) ∧
    (s.dataPtr < MEMORY_SIZE →
      ∃ s', interpOp (.IncData n) pc s fuel = some (.ok (pc + 1, s'))) := by
  refine ⟨rfl, rfl, fun h => ⟨?_, ?_, ?_⟩, fun hp hnz ht => ?_, fun hp => ?_⟩
  · simp [interpOp, memRead, Nat.not_lt.mpr h]
  · simp [interpOp, movePtrLoop, memRead, Nat.not_lt.mpr h]
  · simp [interpOp, memRead, Nat.not_lt.mpr h]
  · simp [interpOp, memRead, hp, hnz, Nat.not_lt.mpr ht]
  · exact ⟨{ s with mem := memUpd s.mem s.dataPtr (wrapAdd (s.mem s.dataPtr) n) },
      by simp [interpOp, memRead, memWrite, hp]⟩

/-- Witness for C4 (amended) at a concrete state: with the cursor at
30000 an `IncData` panics with the index report, while `DecPtr` still
succeeds. -/
theorem c4_witness :
    interpOp (.IncData 1) 0 { mem := fun _ => 0, dataPtr := 30000, input := [], output := [] } 5 =
      some (.error (.indexOutOfBounds 30000)) ∧
    interpOp (.DecPtr 1) 0 { mem := fun _ => 0, dataPtr := 30000, input := [], output := [] } 5 =
      some (.ok (1, { mem := fun _ => 0, dataPtr := usizeSub 30000 1, input := [], output := [] })) :=
  ⟨((c4_amended { mem := fun _ => 0, dataPtr := 30000, input := [], output := [] } 1 0 5 true).2.2.1
      (by decide)).1,
   (c4_amended { mem := fun _ => 0, dataPtr := 30000, input := [], output := [] } 1 0 5 true).2.1⟩

/-- Byte bound for the wrapping add. -/
theorem wrapAdd_lt (a b : Nat) : wrapAdd a b < 256 := Nat.mod_lt _ (by omega)

/-- Byte bound for the wrapping sub. -/
theorem wrapSub_lt (a b : Nat) : wrapSub a b < 256 := Nat.mod_lt _ (by omega)

/-- Bytes read from stdin are bytes. -/
theorem readByte_fst_lt (l : List Nat) : (readByte l).1 < 256 := by
  cases l with
  | nil => simp [readByte]
  | cons b rest => exact Nat.mod_lt _ (by omega)

/-- A tape update with a byte value preserves the byte invariant. -/
theorem memUpd_lt (mem : Nat → Nat) (j v : Nat) (hv : v < 256)
    (hm : ∀ i, mem i < 256) : ∀ i, memUpd mem j v i < 256 := by
  intro i
  unfold memUpd
  split
  · exact hv
  · exact hm i

/-- The unguarded transfer of `Program::execute` is the identity on the
tape when the current cell is zero (the wrapping `+=` adds 0 and the
final write stores the 0 already there), given that cells hold bytes. -/
theorem loopMoveData_zero_mem (s : MachineState) (a : Nat) (hinv : memInv s)
    (hz : s.mem s.dataPtr = 0) :
    memUpd (memUpd s.mem a (wrapAdd (s.mem a) (s.mem s.dataPtr))) s.dataPtr 0 = s.mem := by
  funext j
  unfold memUpd
  by_cases hj : j = s.dataPtr
  · simp [hj, hz]
  · by_cases hja : j = a
    · subst hja
      simp [hj, hz, wrapAdd, Nat.mod_eq_of_lt (hinv j)]
    · simp [hj, hja]

/-- Any successful `execOp` step preserves the byte invariant on the
tape. -/
theorem execOp_memInv (op : Opcode) (pc : Nat) (s : MachineState)
    (fuel pc' : Nat) (s' : MachineState)
    (h : execOp op pc s fuel = some (.ok (pc', s'))) (hinv : memInv s) :
    memInv s' := by
  cases op
  case IncPtr count =>
    simp only [execOp, Option.some.injEq, Except.ok.injEq, Prod.mk.injEq] at h
    obtain ⟨-, hs⟩ := h
    subst hs
    exact hinv
  case DecPtr count =>
    simp only [execOp, Option.some.injEq, Except.ok.injEq, Prod.mk.injEq] at h
    obtain ⟨-, hs⟩ := h
    subst hs
    exact hinv
  case IncData count =>
    by_cases hp : s.dataPtr < MEMORY_SIZE
    · simp only [execOp, memRead, memWrite, hp, if_true, Option.some.injEq,
        Except.ok.injEq, Prod.mk.injEq] at h
      obtain ⟨-, hs⟩ := h
      subst hs
      exact memUpd_lt _ _ _ (wrapAdd_lt _ _) hinv
    · simp [execOp, memRead, hp] at h
  case DecData count =>
    by_cases hp : s.dataPtr < MEMORY_SIZE
    · simp only [execOp, memRead, memWrite, hp, if_true, Option.some.injEq,
        Except.ok.injEq, Prod.mk.injEq] at h
      obtain ⟨-, hs⟩ := h
      subst hs
      exact memUpd_lt _ _ _ (wrapSub_lt _ _) hinv
    · simp [execOp, memRead, hp] at h
  case ReadStdin =>
    by_cases hp : s.dataPtr < MEMORY_SIZE
    · simp only [execOp, memWrite, hp, if_true, Option.some.injEq,
        Except.ok.injEq, Prod.mk.injEq] at h
      obtain ⟨-, hs⟩ := h
      subst hs
      exact memUpd_lt _ _ _ (readByte_fst_lt _) hinv
    · simp [execOp, memWrite, hp] at h
  case WriteStdout =>
    by_cases hp : s.dataPtr < MEMORY_SIZE
    · simp only [execOp, memRead, hp, if_true, Option.some.injEq,
        Except.ok.injEq, Prod.mk.injEq] at h
      obtain ⟨-, hs⟩ := h
      subst hs
      exact hinv
    · simp [execOp, memRead, hp] at h
  case LoopSetToZero =>
    by_cases hp : s.dataPtr < MEMORY_SIZE
    · simp only [execOp, memWrite, hp, if_true, Option.some.injEq,
        Except.ok.injEq, Prod.mk.injEq] at h
      obtain ⟨-, hs⟩ := h
      subst hs
      exact memUpd_lt _ _ _ (by omega) hinv
    · simp [execOp, memWrite, hp] at h
  case LoopMovePtr stride positive =>
    cases hm : movePtrLoop s.mem stride positive fuel s.dataPtr with
    | none => simp [execOp, hm] at h
    | some res =>
      cases res with
      | error e => simp [execOp, hm] at h
      | ok ptr =>
        simp only [execOp, hm, Option.some.injEq, Except.ok.injEq, Prod.mk.injEq] at h
        obtain ⟨-, hs⟩ := h
        subst hs
        exact hinv
  case LoopMoveData stride positive =>
    by_cases hp : s.dataPtr < MEMORY_SIZE
    · by_cases ht : strideAddr s.dataPtr stride positive < MEMORY_SIZE
      · simp only [execOp, memRead, memWrite, hp, ht, if_true, Option.some.injEq,
          Except.ok.injEq, Prod.mk.injEq] at h
        obtain ⟨-, hs⟩ := h
        subst hs
        exact memUpd_lt _ _ _ (by omega) (memUpd_lt _ _ _ (wrapAdd_lt _ _) hinv)
      · simp [execOp, memRead, memWrite, hp, ht] at h
    · simp [execOp, memRead, hp] at h
  case JumpIfDataZero target =>
    by_cases hp : s.dataPtr < MEMORY_SIZE
    · simp only [execOp, memRead, hp, if_true, Option.some.injEq,
        Except.ok.injEq, Prod.mk.injEq] at h
      obtain ⟨-, hs⟩ := h
      subst hs
      exact hinv
    · simp [execOp, memRead, hp] at h
  case JumpIfDataNotZero target =>
    by_cases hp : s.dataPtr < MEMORY_SIZE
    · simp only [execOp, memRead, hp, if_true, Option.some.injEq,
        Except.ok.injEq, Prod.mk.injEq] at h
      obtain ⟨-, hs⟩ := h
      subst hs
      exact hinv
    · simp [execOp, memRead, hp] at h

/-- Step agreement: whenever a `Program::execute` step succeeds, the
`interpret` step succeeds with the identical outcome.  The only arm
whose code differs is `LoopMoveData`; with a zero current cell the
unguarded transfer is the identity, matching `interpret`'s no-op. -/
theorem step_agree (op : Opcode) (pc : Nat) (s : MachineState)
    (fuel pc' : Nat) (s' : MachineState) (hinv : memInv s)
    (h : execOp op pc s fuel = some (.ok (pc', s'))) :
    interpOp op pc s fuel = some (.ok (pc', s')) := by
  cases op
  case LoopMoveData stride positive =>
    by_cases hp : s.dataPtr < MEMORY_SIZE
    · by_cases hz : s.mem s.dataPtr = 0
      · by_cases ht : strideAddr s.dataPtr stride positive < MEMORY_SIZE
        · have hmem := loopMoveData_zero_mem s (strideAddr s.dataPtr stride positive) hinv hz
          simp only [execOp, memRead, memWrite, hp, ht, if_true, hmem,
            Option.some.injEq, Except.ok.injEq, Prod.mk.injEq] at h
          obtain ⟨hpc, hs⟩ := h
          subst hpc
          subst hs
          simp [interpOp, memRead, hp, hz]
        · simp [execOp, memRead, memWrite, hp, ht] at h
      · have heq : interpOp (.LoopMoveData stride positive) pc s fuel =
            execOp (.LoopMoveData stride positive) pc s fuel := by
          simp [interpOp, execOp, memRead, hp, hz]
        rw [heq]
        exact h
    · simp [execOp, memRead, hp] at h
  all_goals exact h

/-- Run agreement: whenever `Program::execute` runs to a successful
completion within some fuel, `interpret` runs to the very same final
state on the same fuel. -/
theorem run_agree : ∀ (fuel : Nat) (prog : List Opcode) (pc : Nat) (s : MachineState),
    memInv s → (∃ r, execRun prog fuel pc s = some (.ok r)) →
    interpRun prog fuel pc s = execRun prog fuel pc s := by
  intro fuel
  induction fuel with
  | zero => intro prog pc s hinv h; rfl
  | succ fuel ih =>
    intro prog pc s hinv h
    obtain ⟨r, hr⟩ := h
    by_cases hpc : pc < prog.length
    · simp only [execRun, dif_pos hpc] at hr
      simp only [interpRun, execRun, dif_pos hpc]
      cases hop : execOp (prog.get ⟨pc, hpc⟩) pc s fuel with
      | none => rw [hop] at hr; simp at hr
      | some res =>
        cases res with
        | error e => rw [hop] at hr; simp at hr
        | ok pr =>
          obtain ⟨pc', s'⟩ := pr
          rw [hop] at hr
          rw [step_agree _ _ _ _ _ _ hinv hop]
          exact ih prog pc' s' (execOp_memInv _ _ _ _ _ _ hop hinv) ⟨r, by simpa using hr⟩
    · simp [interpRun, execRun, hpc]

/-- **C5, counterexample.**  The two interpreters are *not* equivalent:
on the program compiled from `[-<+>]` (a single `LoopMoveData 1 false`),
started on the all-zero tape, `interpret` finishes cleanly (the zero
guard makes the opcode a no-op) while `Program::execute` computes the
target address `0 - 1` (wrapping to `2 ^ 64 - 1`) and dies on the tape
bounds check. -/
theorem c5_counterexample :
    from_source "[-<+>]" = .ok [.LoopMoveData 1 false] ∧
    (interpRun [.LoopMoveData 1 false] 2 0 (initState [])).map
      (Except.map fun s => (s.dataPtr, s.output)) = some (.ok (0, [])) ∧
    execRun [.LoopMoveData 1 false] 2 0 (initState []) =
      some (.error (.indexOutOfBounds (2 ^ 64 - 1))) :=
  ⟨by simp [from_source, parseLoop, count_occ, optimize_loops], rfl, rfl⟩

/-- **C5, amended.**  One-sided refinement instead of equivalence:
whenever `Program::execute` (main.rs) completes successfully on a
program, `interpret` (interpreter.rs) produces the identical outcome —
same final tape, cursor and output.  (The converse fails: see the
counterexample, where a `LoopMoveData` executed on a zero cell with an
out-of-range target address is a no-op for `interpret` but a fatal
index panic for `execute`.) -/
theorem c5_exec_refines_interp (prog : List Opcode) (input : List Nat) (fuel : Nat)
    (h : ∃ r, execRun prog fuel 0 (initState input) = some (.ok r)) :
    interpRun prog fuel 0 (initState input) = execRun prog fuel 0 (initState input) :=
  run_agree fuel prog 0 (initState input) (fun i => by simp [initState]) h

/-- Witness for C5 (amended): a concrete transfer program on which
`execute` succeeds, so both interpreters agree. -/
theorem c5_witness :
    interpRun [.IncData 2, .LoopMoveData 1 true] 3 0 (initState []) =
      execRun [.IncData 2, .LoopMoveData 1 true] 3 0 (initState []) :=
  c5_exec_refines_interp [.IncData 2, .LoopMoveData 1 true] [] 3 ⟨_, rfl⟩

/-- `count_occ` on a run: starting the `u8` counter at `c`, a further `m`
copies of `val` followed by a non-`val` character (or the end) yield the
counter `(c + m) % 256` and leave exactly the tail. -/
theorem count_occ_run (v : Char) :
    ∀ (m : Nat) (rest : List Char) (c : Nat), c < 256 → rest.head? ≠ some v →
    count_occ v (List.replicate m v ++ rest) c = ((c + m) % 256, rest) := by
  intro m
  induction m with
  | zero =>
    intro rest c hc hr
    cases rest with
    | nil => simp [count_occ, Nat.mod_eq_of_lt hc]
    | cons x xs =>
      have hx : x ≠ v := by simpa using hr
      simp [count_occ, hx, Nat.mod_eq_of_lt hc]
  | succ m ih =>
    intro rest c hc hr
    have : count_occ v (List.replicate (m + 1) v ++ rest) c =
        count_occ v (List.replicate m v ++ rest) ((c + 1) % 256) := by
      simp [List.replicate_succ, count_occ]
    rw [this, ih rest ((c + 1) % 256) (Nat.mod_lt _ (by omega)) hr]
    simp only [Prod.mk.injEq]
    exact ⟨by omega, trivial⟩

/-- Consuming a run of a non-bracket character does not change bracket
balance. -/
theorem balancedFrom_count_occ (v : Char) (hv1 : v ≠ '[') (hv2 : v ≠ ']') :
    ∀ (l : List Char) (c k : Nat),
    balancedFrom k (count_occ v l c).2 = balancedFrom k l := by
  intro l
  induction l with
  | nil => intro c k; simp [count_occ]
  | cons x xs ih =>
    intro c k
    by_cases hx : x = v
    · subst hx
      rw [show count_occ x (x :: xs) c = count_occ x xs ((c + 1) % 256) by
            simp [count_occ]]
      rw [ih ((c + 1) % 256) k]
      simp [balancedFrom, hv1, hv2]
    · simp [count_occ, hx]

/-- A successful parse implies bracket balance, where the open-bracket
surplus equals the current stack depth. -/
theorem parseLoop_ok_balanced :
    ∀ (src : List Char) (instrs : List Opcode) (stack : List Nat),
    (∃ p, parseLoop src instrs stack = .ok p) →
    balancedFrom stack.length src = true := by
  intro src instrs stack
  induction src, instrs, stack using parseLoop.induct with
  | case1 instrs =>
    intro _
    simp [balancedFrom]
  | case2 instrs s stackRest =>
    intro h
    obtain ⟨p, hp⟩ := h
    simp [parseLoop] at hp
  | case3 instrs stack rest ih =>
    intro h
    rw [parseLoop.eq_def] at h
    simp only [reduceIte] at h
    rw [show balancedFrom stack.length ('>' :: rest) = balancedFrom stack.length rest by
          simp [balancedFrom]]
    rw [← balancedFrom_count_occ '>' (by decide) (by decide) rest 1 stack.length]
    exact ih h
  | case4 instrs stack rest h1 ih =>
    intro h
    rw [parseLoop.eq_def] at h
    simp only [reduceIte] at h
    rw [show balancedFrom stack.length ('<' :: rest) = balancedFrom stack.length rest by
          simp [balancedFrom]]
    rw [← balancedFrom_count_occ '<' (by decide) (by decide) rest 1 stack.length]
    exact ih h
  | case5 instrs stack rest h1 h2 ih =>
    intro h
    rw [parseLoop.eq_def] at h
    simp only [reduceIte] at h
    rw [show balancedFrom stack.length ('+' :: rest) = balancedFrom stack.length rest by
          simp [balancedFrom]]
    rw [← balancedFrom_count_occ '+' (by decide) (by decide) rest 1 stack.length]
    exact ih h
  | case6 instrs stack rest h1 h2 h3 ih =>
    intro h
    rw [parseLoop.eq_def] at h
    simp only [reduceIte] at h
    rw [show balancedFrom stack.length ('-' :: rest) = balancedFrom stack.length rest by
          simp [balancedFrom]]
    rw [← balancedFrom_count_occ '-' (by decide) (by decide) rest 1 stack.length]
    exact ih h
  | case7 instrs stack rest h1 h2 h3 h4 ih =>
    intro h
    rw [parseLoop.eq_def] at h
    simp only [reduceIte] at h
    simpa [balancedFrom] using ih h
  | case8 instrs stack rest h1 h2 h3 h4 h5 ih =>
    intro h
    rw [parseLoop.eq_def] at h
    simp only [reduceIte] at h
    simpa [balancedFrom] using ih h
  | case9 instrs stack rest h1 h2 h3 h4 h5 h6 ih =>
    intro h
    rw [parseLoop.eq_def] at h
    simp only [reduceIte] at h
    simpa [balancedFrom] using ih h
  | case10 instrs rest h1 h2 h3 h4 h5 h6 h7 =>
    intro h
    obtain ⟨p, hp⟩ := h
    simp [parseLoop] at hp
  | case11 instrs rest s stackRest loopInsn hopt h1 h2 h3 h4 h5 h6 h7 ih =>
    intro h
    rw [parseLoop.eq_def] at h
    simp only [reduceIte, hopt] at h
    simpa [balancedFrom] using ih h
  | case12 instrs rest s stackRest hopt h1 h2 h3 h4 h5 h6 h7 ih =>
    intro h
    rw [parseLoop.eq_def] at h
    simp only [reduceIte, hopt] at h
    simpa [balancedFrom] using ih h
  | case13 instrs stack c rest h1 h2 h3 h4 h5 h6 h7 h8 ih =>
    intro h
    rw [parseLoop.eq_def] at h
    simp only [if_neg h1, if_neg h2, if_neg h3, if_neg h4, if_neg h5, if_neg h6,
      if_neg h7, if_neg h8] at h
    simpa [balancedFrom, h7, h8] using ih h

/-- **C6.**  Compiling a source with unbalanced brackets (in either
direction) fails — no `Program` is produced — with an error that carries
a position (the unmatched bracket's index in the instruction stream, the
`pc` of the Rust panic messages); in particular the source `[` alone
fails with the unmatched-open error at position 0. -/
theorem c6_unbalanced_fails :
    (∀ src : String, bracketsBalanced src.toList = false →
      ∃ pos, from_source src = .error (.unmatchedOpen pos) ∨
        from_source src = .error (.unmatchedClose pos)) ∧
    from_source "[" = .error (.unmatchedOpen 0) := by
  constructor
  · intro src hb
    cases hfs : from_source src with
    | ok p =>
      exfalso
      have := parseLoop_ok_balanced src.toList [] [] ⟨p, hfs⟩
      simp only [bracketsBalanced] at hb
      rw [show ([] : List Nat).length = 0 from rfl] at this
      rw [this] at hb
      cases hb
    | error e =>
      cases e with
      | unmatchedOpen pos => exact ⟨pos, .inl rfl⟩
      | unmatchedClose pos => exact ⟨pos, .inr rfl⟩
  · simp [from_source, parseLoop]

/-- Witness for C6: the lone close bracket `]` is unbalanced and fails
compilation with a positioned error. -/
theorem c6_witness :
    ∃ pos, from_source "]" = .error (.unmatchedOpen pos) ∨
      from_source "]" = .error (.unmatchedClose pos) :=
  c6_unbalanced_fails.1 "]" (by decide)

/-- The parse loop consumes a whole run of `k ≥ 1` identical run-length
symbols in one step, emitting a single opcode whose count is the run
length reduced modulo 256 (the `u8` counter wraps). -/
theorem parseLoop_run (sym : Char)
    (hsym : sym = '>' ∨ sym = '<' ∨ sym = '+' ∨ sym = '-') (k : Nat)
    (hk : 1 ≤ k) (rest : List Char) (hrest : rest.head? ≠ some sym)
    (instrs : List Opcode) (stack : List Nat) :
    parseLoop (List.replicate k sym ++ rest) instrs stack =
      parseLoop rest (instrs ++ [runOp sym (k % 256)]) stack := by
  obtain ⟨k', rfl⟩ : ∃ k', k = k' + 1 := ⟨k - 1, by omega⟩
  have hco := count_occ_run sym k' rest 1 (by omega) hrest
  have h1k : 1 + k' = k' + 1 := Nat.add_comm 1 k'
  rcases hsym with h | h | h | h <;> subst h <;>
    (rw [List.replicate_succ, List.cons_append, parseLoop.eq_def]
     simp only [hco, h1k]
     rfl)

/-- **C7, counterexample.**  The run-length counter is a `u8`, so a run
of 256 `+`s compiles to a single `IncData` opcode whose count is 0 —
not 256 as the claim (no fixed upper limit, count = k, count ≥ 1)
requires. -/
theorem c7_counterexample :
    from_source ⟨List.replicate 256 '+'⟩ = .ok [.IncData 0] ∧
    (Opcode.IncData 0) ≠ .IncData 256 ∧ ¬ (1 ≤ 0) := by
  refine ⟨?_, by decide, by decide⟩
  have h := parseLoop_run '+' (by decide) 256 (by omega) [] (by decide) [] []
  calc from_source ⟨List.replicate 256 '+'⟩
      = parseLoop (List.replicate 256 '+' ++ []) [] [] := by
        rw [List.append_nil]; rfl
    _ = parseLoop [] ([] ++ [runOp '+' (256 % 256)]) [] := h
    _ = .ok [.IncData 0] := by simp [parseLoop, runOp]

/-- **C7, amended.**  For every maximal run of `k ≥ 1` identical
run-length symbols, in any parser state, the compiler consumes the whole
run and emits exactly one opcode carrying `k % 256` (the `u8` counter
wraps); in particular for `k ≤ 255` the count equals `k` and is at
least 1. -/
theorem c7_run_length (sym : Char)
    (hsym : sym = '>' ∨ sym = '<' ∨ sym = '+' ∨ sym = '-') (k : Nat)
    (hk : 1 ≤ k) (rest : List Char) (instrs : List Opcode)
    (stack : List Nat) (hrest : rest.head? ≠ some sym) :
    (parseLoop (List.replicate k sym ++ rest) instrs stack =
      parseLoop rest (instrs ++ [runOp sym (k % 256)]) stack) ∧
    (k ≤ 255 → k % 256 = k ∧ 1 ≤ k % 256) :=
  ⟨parseLoop_run sym hsym k hk rest hrest instrs stack, fun hle => by
    constructor <;> omega⟩

/-- Witness for C7 (amended): a run of two `+`s before a `.` emits one
`IncData 2`. -/
theorem c7_witness :
    (parseLoop (List.replicate 2 '+' ++ ['.']) [] [] =
      parseLoop ['.'] ([] ++ [runOp '+' (2 % 256)]) []) ∧
    (2 % 256 = 2 ∧ 1 ≤ 2 % 256) :=
  ⟨(c7_run_length '+' (by decide) 2 (by omega) ['.'] [] [] (by decide)).1,
   (c7_run_length '+' (by decide) 2 (by omega) ['.'] [] [] (by decide)).2 (by omega)⟩

/-- Indexing an appended singleton below the original length. -/
theorem get_append_one_lt {α : Type} (l : List α) (x : α) (i : Nat)
    (h : i < l.length) (h2 : i < (l ++ [x]).length) :
    (l ++ [x]).get ⟨i, h2⟩ = l.get ⟨i, h⟩ := by
  simp [List.get_eq_getElem, List.getElem_append_left h]

/-- Indexing an appended singleton at the original length. -/
theorem get_append_one_last {α : Type} (l : List α) (x : α)
    (h2 : l.length < (l ++ [x]).length) :
    (l ++ [x]).get ⟨l.length, h2⟩ = x := by
  rw [List.get_eq_getElem, List.getElem_append_right (Nat.le_refl _)]
  simp

/-- Indexing a `set` at the written position. -/
theorem get_set_self' {α : Type} (l : List α) (i : Nat) (a : α)
    (h : i < (l.set i a).length) : (l.set i a).get ⟨i, h⟩ = a := by
  rw [List.get_eq_getElem]
  exact List.getElem_set_self h

/-- Indexing a `set` away from the written position. -/
theorem get_set_ne' {α : Type} (l : List α) (i j : Nat) (a : α) (hne : i ≠ j)
    (h : j < (l.set i a).length) (h' : j < l.length) :
    (l.set i a).get ⟨j, h⟩ = l.get ⟨j, h'⟩ := by
  rw [List.get_eq_getElem, List.get_eq_getElem]
  exact List.getElem_set_ne hne h

/-- Indexing a `take` prefix. -/
theorem get_take' {α : Type} (l : List α) (s i : Nat)
    (h : i < (l.take s).length) (h' : i < l.length) :
    (l.take s).get ⟨i, h⟩ = l.get ⟨i, h'⟩ := by
  rw [List.get_eq_getElem, List.get_eq_getElem]
  exact List.getElem_take l

/-- Whatever the optimizer emits is not a jump opcode. -/
theorem optimize_nonJump (l : List Opcode) (op : Opcode)
    (h : optimize_loops l = some op) : nonJump op := by
  unfold optimize_loops at h
  split at h
  · cases h; trivial
  · split at h
    · cases h; trivial
    · exact absurd h (by simp)
  · split at h
    · cases h; trivial
    · exact absurd h (by simp)
  · cases h; trivial
  · cases h; trivial
  · exact absurd h (by simp)

/-- Appending a non-jump opcode preserves the parse invariant. -/
theorem parseInv_append (instrs : List Opcode) (stack : List Nat) (op : Opcode)
    (hop : nonJump op) (inv : ParseInv instrs stack) :
    ParseInv (instrs ++ [op]) stack := by
  have hlen : (instrs ++ [op]).length = instrs.length + 1 := by simp
  constructor
  · exact inv.stackSorted
  · intro q hq
    have := inv.stackBounded q hq
    omega
  · intro q hq h
    have hb := inv.stackBounded q hq
    rw [get_append_one_lt instrs op q hb h]
    exact inv.stackPlaceholder q hq hb
  · intro i t h hget hni
    by_cases hi : i < instrs.length
    · rw [get_append_one_lt instrs op i hi h] at hget
      obtain ⟨hlt, ht, hgt⟩ := inv.resolvedOpen i t hi hget hni
      refine ⟨hlt, by omega, ?_⟩
      rw [get_append_one_lt instrs op t ht]
      exact hgt
    · have hieq : i = instrs.length := by omega
      subst hieq
      rw [get_append_one_last instrs op h] at hget
      rw [hget] at hop
      exact absurd hop (by simp [nonJump])
  · intro j o h hget
    by_cases hj : j < instrs.length
    · rw [get_append_one_lt instrs op j hj h] at hget
      obtain ⟨holt, hno, ho, hgo⟩ := inv.resolvedClose j o hj hget
      refine ⟨holt, hno, by omega, ?_⟩
      rw [get_append_one_lt instrs op o ho]
      exact hgo
    · have hjeq : j = instrs.length := by omega
      subst hjeq
      rw [get_append_one_last instrs op h] at hget
      rw [hget] at hop
      exact absurd hop (by simp [nonJump])
  · intro q hq i t h hget hni
    by_cases hi : i < instrs.length
    · rw [get_append_one_lt instrs op i hi h] at hget
      exact inv.separated q hq i t hi hget hni
    · have hieq : i = instrs.length := by omega
      subst hieq
      rw [get_append_one_last instrs op h] at hget
      rw [hget] at hop
      exact absurd hop (by simp [nonJump])

/-- Emitting the `[` placeholder and pushing its position preserves the
parse invariant. -/
theorem parseInv_push (instrs : List Opcode) (stack : List Nat)
    (inv : ParseInv instrs stack) :
    ParseInv (instrs ++ [.JumpIfDataZero instrs.length])
      (instrs.length :: stack) := by
  have hlen : (instrs ++ [Opcode.JumpIfDataZero instrs.length]).length =
      instrs.length + 1 := by simp
  constructor
  · exact List.pairwise_cons.mpr ⟨fun q hq => inv.stackBounded q hq, inv.stackSorted⟩
  · intro q hq
    rcases List.mem_cons.mp hq with hq | hq
    · omega
    · have := inv.stackBounded q hq
      omega
  · intro q hq h
    rcases List.mem_cons.mp hq with hq | hq
    · subst hq
      exact get_append_one_last instrs _ h
    · have hb := inv.stackBounded q hq
      rw [get_append_one_lt instrs _ q hb h]
      exact inv.stackPlaceholder q hq hb
  · intro i t h hget hni
    have hni' : i ≠ instrs.length ∧ i ∉ stack := by
      constructor
      · intro hc; exact hni (hc ▸ List.mem_cons_self _ _)
      · intro hc; exact hni (List.mem_cons_of_mem _ hc)
    have hi : i < instrs.length := by omega
    rw [get_append_one_lt instrs _ i hi h] at hget
    obtain ⟨hlt, ht, hgt⟩ := inv.resolvedOpen i t hi hget hni'.2
    refine ⟨hlt, by omega, ?_⟩
    rw [get_append_one_lt instrs _ t ht]
    exact hgt
  · intro j o h hget
    by_cases hj : j < instrs.length
    · rw [get_append_one_lt instrs _ j hj h] at hget
      obtain ⟨holt, hno, ho, hgo⟩ := inv.resolvedClose j o hj hget
      refine ⟨holt, ?_, by omega, ?_⟩
      · intro hc
        rcases List.mem_cons.mp hc with hc | hc
        · omega
        · exact hno hc
      · rw [get_append_one_lt instrs _ o ho]
        exact hgo
    · have hjeq : j = instrs.length := by omega
      subst hjeq
      rw [get_append_one_last instrs _ h] at hget
      cases hget
  · intro q hq i t h hget hni
    have hni' : i ≠ instrs.length ∧ i ∉ stack := by
      constructor
      · intro hc; exact hni (hc ▸ List.mem_cons_self _ _)
      · intro hc; exact hni (List.mem_cons_of_mem _ hc)
    have hi : i < instrs.length := by omega
    rw [get_append_one_lt instrs _ i hi h] at hget
    rcases List.mem_cons.mp hq with hq | hq
    · subst hq
      obtain ⟨-, ht, -⟩ := inv.resolvedOpen i t hi hget hni'.2
      left
      exact ht
    · exact inv.separated q hq i t hi hget hni'.2

/-- Resolving a bracket pair (back-patching the placeholder and emitting
the matching `JumpIfDataNotZero`) preserves the parse invariant. -/
theorem parseInv_resolve (instrs : List Opcode) (s : Nat) (stackRest : List Nat)
    (inv : ParseInv instrs (s :: stackRest)) :
    ParseInv ((instrs.set s (.JumpIfDataZero instrs.length)) ++
      [.JumpIfDataNotZero s]) stackRest := by
  have hsL : s < instrs.length := inv.stackBounded s (List.mem_cons_self _ _)
  have hrest : ∀ q ∈ stackRest, q < s :=
    (List.pairwise_cons.mp inv.stackSorted).1
  have hsnot : s ∉ stackRest := fun hc => absurd (hrest s hc) (by omega)
  have hplace := inv.stackPlaceholder s (List.mem_cons_self _ _) hsL
  have hlen : ((instrs.set s (.JumpIfDataZero instrs.length)) ++
      [Opcode.JumpIfDataNotZero s]).length = instrs.length + 1 := by simp
  have hlset : (instrs.set s (Opcode.JumpIfDataZero instrs.length)).length =
      instrs.length := by simp
  -- index characterization of the new list
  have hgetlt : ∀ i (hi : i < instrs.length), i ≠ s →
      ∀ h2, ((instrs.set s (.JumpIfDataZero instrs.length)) ++
        [Opcode.JumpIfDataNotZero s]).get ⟨i, h2⟩ = instrs.get ⟨i, hi⟩ := by
    intro i hi hne h2
    rw [get_append_one_lt _ _ i (by omega) h2]
    exact get_set_ne' instrs s i _ (fun hc => hne hc.symm) (by omega) hi
  have hgets : ∀ h2, ((instrs.set s (.JumpIfDataZero instrs.length)) ++
      [Opcode.JumpIfDataNotZero s]).get ⟨s, h2⟩ =
      .JumpIfDataZero instrs.length := by
    intro h2
    rw [get_append_one_lt _ _ s (by omega) h2]
    exact get_set_self' instrs s _ (by omega)
  have hgetC : ∀ h2, ((instrs.set s (.JumpIfDataZero instrs.length)) ++
      [Opcode.JumpIfDataNotZero s]).get ⟨instrs.length, h2⟩ =
      .JumpIfDataNotZero s := by
    intro h2
    have h3 := get_append_one_last (instrs.set s (.JumpIfDataZero instrs.length))
      (Opcode.JumpIfDataNotZero s) (by omega)
    rw [show (⟨(instrs.set s (Opcode.JumpIfDataZero instrs.length)).length, by omega⟩ :
        Fin ((instrs.set s (Opcode.JumpIfDataZero instrs.length) ++
          [Opcode.JumpIfDataNotZero s]).length)) = ⟨instrs.length, h2⟩ from by
      simp [hlset]] at h3
    exact h3
  constructor
  · exact (List.pairwise_cons.mp inv.stackSorted).2
  · intro q hq
    have := hrest q hq
    omega
  · intro q hq h
    have hqs := hrest q hq
    rw [hgetlt q (by omega) (by omega) h]
    exact inv.stackPlaceholder q (List.mem_cons_of_mem _ hq) (by omega)
  · intro i t h hget hni
    by_cases hiC : i = instrs.length
    · subst hiC
      rw [hgetC h] at hget
      cases hget
    · by_cases his : i = s
      · subst his
        rw [hgets h] at hget
        cases hget
        refine ⟨hsL, by omega, ?_⟩
        exact hgetC _
      · have hi : i < instrs.length := by omega
        rw [hgetlt i hi his h] at hget
        have hni' : i ∉ s :: stackRest := by
          intro hc
          rcases List.mem_cons.mp hc with hc | hc
          · exact his hc
          · exact hni hc
        obtain ⟨hlt, ht, hgt⟩ := inv.resolvedOpen i t hi hget hni'
        have hts : t ≠ s := by
          intro hc
          subst hc
          rw [hplace] at hgt
          cases hgt
        refine ⟨hlt, by omega, ?_⟩
        rw [hgetlt t ht hts]
        exact hgt
  · intro j o h hget
    by_cases hjC : j = instrs.length
    · subst hjC
      rw [hgetC h] at hget
      cases hget
      refine ⟨hsL, hsnot, by omega, ?_⟩
      exact hgets _
    · by_cases hjs : j = s
      · subst hjs
        rw [hgets h] at hget
        cases hget
      · have hj : j < instrs.length := by omega
        rw [hgetlt j hj hjs h] at hget
        obtain ⟨holt, hno, ho, hgo⟩ := inv.resolvedClose j o hj hget
        have hos : o ≠ s := by
          intro hc
          exact hno (hc ▸ List.mem_cons_self _ _)
        refine ⟨holt, fun hc => hno (List.mem_cons_of_mem _ hc), by omega, ?_⟩
        rw [hgetlt o ho hos]
        exact hgo
  · intro q hq i t h hget hni
    have hqs := hrest q hq
    by_cases hiC : i = instrs.length
    · subst hiC
      rw [hgetC h] at hget
      cases hget
    · by_cases his : i = s
      · subst his
        right
        omega
      · have hi : i < instrs.length := by omega
        rw [hgetlt i hi his h] at hget
        have hni' : i ∉ s :: stackRest := by
          intro hc
          rcases List.mem_cons.mp hc with hc | hc
          · exact his hc
          · exact hni hc
        exact inv.separated q (List.mem_cons_of_mem _ hq) i t hi hget hni'

/-- Collapsing an optimizable bracket pair (truncating to the opening
placeholder and emitting the replacement opcode) preserves the parse
invariant. -/
theorem parseInv_optimize (instrs : List Opcode) (s : Nat) (stackRest : List Nat)
    (loopInsn : Opcode)
    (hopt : optimize_loops (instrs.drop (s + 1)) = some loopInsn)
    (inv : ParseInv instrs (s :: stackRest)) :
    ParseInv (instrs.take s ++ [loopInsn]) stackRest := by
  have hsL : s < instrs.length := inv.stackBounded s (List.mem_cons_self _ _)
  have hrest : ∀ q ∈ stackRest, q < s :=
    (List.pairwise_cons.mp inv.stackSorted).1
  have hnj : nonJump loopInsn := optimize_nonJump _ _ hopt
  have hltake : (instrs.take s).length = s := by
    simp [List.length_take]
    omega
  have hlen : (instrs.take s ++ [loopInsn]).length = s + 1 := by simp [hltake]
  have hgetlt : ∀ i (hi : i < s) h2,
      (instrs.take s ++ [loopInsn]).get ⟨i, h2⟩ =
        instrs.get ⟨i, by omega⟩ := by
    intro i hi h2
    rw [get_append_one_lt _ _ i (by omega) h2]
    exact get_take' instrs s i (by omega) (by omega)
  have hgets : ∀ h2, (instrs.take s ++ [loopInsn]).get ⟨s, h2⟩ = loopInsn := by
    intro h2
    have h3 := get_append_one_last (instrs.take s) loopInsn (by omega)
    rw [show (⟨(instrs.take s).length, by omega⟩ :
        Fin ((instrs.take s ++ [loopInsn]).length)) = ⟨s, h2⟩ from by
      simp [hltake]] at h3
    exact h3
  constructor
  · exact (List.pairwise_cons.mp inv.stackSorted).2
  · intro q hq
    have := hrest q hq
    omega
  · intro q hq h
    have hqs := hrest q hq
    rw [hgetlt q hqs h]
    exact inv.stackPlaceholder q (List.mem_cons_of_mem _ hq) (by omega)
  · intro i t h hget hni
    by_cases his : i = s
    · subst his
      rw [hgets h] at hget
      rw [hget] at hnj
      exact absurd hnj (by simp [nonJump])
    · have hi : i < s := by omega
      rw [hgetlt i hi h] at hget
      have hni' : i ∉ s :: stackRest := by
        intro hc
        rcases List.mem_cons.mp hc with hc | hc
        · exact his hc
        · exact hni hc
      obtain ⟨hlt, ht, hgt⟩ := inv.resolvedOpen i t (by omega) hget hni'
      have hts : t < s := by
        rcases inv.separated s (List.mem_cons_self _ _) i t (by omega) hget hni'
          with hc | hc
        · exact hc
        · omega
      refine ⟨hlt, by omega, ?_⟩
      rw [hgetlt t hts]
      exact hgt
  · intro j o h hget
    by_cases hjs : j = s
    · subst hjs
      rw [hgets h] at hget
      rw [hget] at hnj
      exact absurd hnj (by simp [nonJump])
    · have hj : j < s := by omega
      rw [hgetlt j hj h] at hget
      obtain ⟨holt, hno, ho, hgo⟩ := inv.resolvedClose j o (by omega) hget
      refine ⟨holt, fun hc => hno (List.mem_cons_of_mem _ hc), by omega, ?_⟩
      rw [hgetlt o (by omega)]
      exact hgo
  · intro q hq i t h hget hni
    by_cases his : i = s
    · subst his
      rw [hgets h] at hget
      rw [hget] at hnj
      exact absurd hnj (by simp [nonJump])
    · have hi : i < s := by omega
      rw [hgetlt i hi h] at hget
      have hni' : i ∉ s :: stackRest := by
        intro hc
        rcases List.mem_cons.mp hc with hc | hc
        · exact his hc
        · exact hni hc
      exact inv.separated q (List.mem_cons_of_mem _ hq) i t (by omega) hget hni'

/-- Any successful parse starting from an invariant-satisfying state ends
with the invariant on the final program and an empty stack. -/
theorem parseLoop_ok_inv :
    ∀ (src : List Char) (instrs : List Opcode) (stack : List Nat),
    ParseInv instrs stack → ∀ p, parseLoop src instrs stack = .ok p →
    ParseInv p [] := by
  intro src instrs stack
  induction src, instrs, stack using parseLoop.induct with
  | case1 instrs =>
    intro hinv p hp
    rw [parseLoop.eq_def] at hp
    simp only [Except.ok.injEq] at hp
    subst hp
    exact hinv
  | case2 instrs s stackRest =>
    intro hinv p hp
    rw [parseLoop.eq_def] at hp
    cases hp
  | case3 instrs stack rest ih =>
    intro hinv p hp
    rw [parseLoop.eq_def] at hp
    exact ih (parseInv_append _ _ _ trivial hinv) p hp
  | case4 instrs stack rest h1 ih =>
    intro hinv p hp
    rw [parseLoop.eq_def] at hp
    exact ih (parseInv_append _ _ _ trivial hinv) p hp
  | case5 instrs stack rest h1 h2 ih =>
    intro hinv p hp
    rw [parseLoop.eq_def] at hp
    exact ih (parseInv_append _ _ _ trivial hinv) p hp
  | case6 instrs stack rest h1 h2 h3 ih =>
    intro hinv p hp
    rw [parseLoop.eq_def] at hp
    exact ih (parseInv_append _ _ _ trivial hinv) p hp
  | case7 instrs stack rest h1 h2 h3 h4 ih =>
    intro hinv p hp
    rw [parseLoop.eq_def] at hp
    exact ih (parseInv_append _ _ _ trivial hinv) p hp
  | case8 instrs stack rest h1 h2 h3 h4 h5 ih =>
    intro hinv p hp
    rw [parseLoop.eq_def] at hp
    exact ih (parseInv_append _ _ _ trivial hinv) p hp
  | case9 instrs stack rest h1 h2 h3 h4 h5 h6 ih =>
    intro hinv p hp
    rw [parseLoop.eq_def] at hp
    exact ih (parseInv_push _ _ hinv) p hp
  | case10 instrs rest h1 h2 h3 h4 h5 h6 h7 =>
    intro hinv p hp
    rw [parseLoop.eq_def] at hp
    cases hp
  | case11 instrs rest s stackRest loopInsn hopt h1 h2 h3 h4 h5 h6 h7 ih =>
    intro hinv p hp
    rw [parseLoop.eq_def] at hp
    simp only [reduceIte, hopt] at hp
    exact ih (parseInv_optimize _ _ _ _ hopt hinv) p hp
  | case12 instrs rest s stackRest hopt h1 h2 h3 h4 h5 h6 h7 ih =>
    intro hinv p hp
    rw [parseLoop.eq_def] at hp
    simp only [reduceIte, hopt] at hp
    exact ih (parseInv_resolve _ _ _ hinv) p hp
  | case13 instrs stack c rest h1 h2 h3 h4 h5 h6 h7 h8 ih =>
    intro hinv p hp
    rw [parseLoop.eq_def] at hp
    simp only [if_neg h1, if_neg h2, if_neg h3, if_neg h4, if_neg h5, if_neg h6,
      if_neg h7, if_neg h8] at hp
    exact ih hinv p hp

/-- **C3.**  In every successfully compiled program the jump opcodes are
perfectly paired: each `JumpIfDataZero` points at a `JumpIfDataNotZero`
further right that points back at it and vice versa (so the matching is
one-to-one, stated as the two uniqueness conjuncts), and no opcode is an
unresolved placeholder (a `JumpIfDataZero` targeting its own index). -/
theorem c3_jump_pairing (src : String) (p : List Opcode)
    (h : from_source src = .ok p) :
    jumpsResolved p ∧
    (∀ i (hi : i < p.length) t, p.get ⟨i, hi⟩ = .JumpIfDataZero t →
      ∀ j (hj : j < p.length), p.get ⟨j, hj⟩ = .JumpIfDataNotZero i → j = t) ∧
    (∀ j (hj : j < p.length) o, p.get ⟨j, hj⟩ = .JumpIfDataNotZero o →
      ∀ i (hi : i < p.length), p.get ⟨i, hi⟩ = .JumpIfDataZero j → i = o) ∧
    (∀ i (hi : i < p.length), p.get ⟨i, hi⟩ ≠ .JumpIfDataZero i) := by
  have base : ParseInv [] [] := by
    constructor
    · exact List.Pairwise.nil
    · intro q hq
      exact absurd hq (List.not_mem_nil q)
    · intro q hq
      exact absurd hq (List.not_mem_nil q)
    · intro i t hi
      simp at hi
    · intro j o hj
      simp at hj
    · intro q hq
      exact absurd hq (List.not_mem_nil q)
  have hinv : ParseInv p [] := parseLoop_ok_inv src.toList [] [] base p h
  have hro : ∀ i t (hi : i < p.length), p.get ⟨i, hi⟩ = .JumpIfDataZero t →
      i < t ∧ ∃ h' : t < p.length, p.get ⟨t, h'⟩ = .JumpIfDataNotZero i :=
    fun i t hi hg => hinv.resolvedOpen i t hi hg (List.not_mem_nil i)
  have hrc : ∀ j o (hj : j < p.length), p.get ⟨j, hj⟩ = .JumpIfDataNotZero o →
      o < j ∧ ∃ h' : o < p.length, p.get ⟨o, h'⟩ = .JumpIfDataZero j :=
    fun j o hj hg => ⟨(hinv.resolvedClose j o hj hg).1,
      (hinv.resolvedClose j o hj hg).2.2⟩
  refine ⟨⟨fun i hi t hg => hro i t hi hg, fun j hj o hg => hrc j o hj hg⟩,
    ?_, ?_, ?_⟩
  · intro i hi t hgi j hj hgj
    obtain ⟨-, ho, hgo⟩ := hrc j i hj hgj
    have : p.get ⟨i, ho⟩ = p.get ⟨i, hi⟩ := rfl
    rw [this, hgi] at hgo
    cases hgo
    rfl
  · intro j hj o hgj i hi hgi
    obtain ⟨-, ht, hgt⟩ := hro i j hi hgi
    have : p.get ⟨j, ht⟩ = p.get ⟨j, hj⟩ := rfl
    rw [this, hgj] at hgt
    cases hgt
    rfl
  · intro i hi hg
    obtain ⟨hlt, -⟩ := hro i i hi hg
    omega

/-- Witness for C3: the program compiled from `[+]` is a resolved pair
`JumpIfDataZero 2` / `JumpIfDataNotZero 0` around the increment. -/
theorem c3_witness :
    jumpsResolved [Opcode.JumpIfDataZero 2, Opcode.IncData 1,
      Opcode.JumpIfDataNotZero 0] :=
  (c3_jump_pairing "[+]"
    [Opcode.JumpIfDataZero 2, Opcode.IncData 1, Opcode.JumpIfDataNotZero 0]
    (by simp [from_source, parseLoop, count_occ, optimize_loops])).1

end BfJit
